import Mathlib

/-!
Verification of the MISB ST 1201 floating-point / integer codec
(`fpencoder.go` of the `st1201` repository).

Modelling conventions:
* Go `float64` values are modelled exactly: finite values are rationals,
  and the three IEEE-754 special classes that the code inspects
  (`+Inf`, `-Inf`, `NaN`) are explicit constructors of `GoFloat`.
* `math.Ceil(math.Log(x) / math.Log(2))` is modelled exactly by
  `Int.clog 2 x` (the ceiling of the base-2 logarithm).  `math.Floor`
  and `math.Ceil` on already-rational quantities are `Int.floor` and
  `Int.ceil`.  The source computes these in `float64`; the embedding
  uses exact rational arithmetic throughout.
* Byte slices are `List ℕ` with entries below 256; the big-endian
  writes of `binary.Write` and the reads of `binary.BigEndian.UintNN`
  are `beBytes` and `beToNat`.
* Go runtime panics (the out-of-bounds write `encoded[0] = …` when the
  buffer is empty, and the read `bytes[0]` of an empty slice) are made
  explicit as the `panicked` error constructors.
* Go's conversion of an out-of-range or negative `float64` to an
  unsigned integer type is implementation-specific; the embedding wraps
  modulo 2^(8·width) (`beBytes` does this intrinsically).  All verified
  code paths keep the quantized value inside the representable range,
  where the conversion is exact, so this choice is never exercised.
-/

deriving instance DecidableEq for Except

namespace ST1201

/-- A Go `float64` value: an exact rational, or one of the three special
classes the encoder distinguishes. -/
inductive GoFloat where
  | finite (q : ℚ)
  | posInf
  | negInf
  | nan
deriving DecidableEq

/-- The `FPEncoder` struct of fpencoder.go.  `bPow` and `dPow` are stored
as `float64` in Go but always hold integral values, so they are `ℤ` here;
`fieldLength` is a Go `int`. -/
structure FPEncoder where
  a : ℚ
  b : ℚ
  bPow : ℤ
  dPow : ℤ
  sF : ℚ
  sR : ℚ
  zOffset : ℚ
  fieldLength : ℤ
deriving DecidableEq

/-- `preCompute` of fpencoder.go: derives the scaling constants from the
range and the field length.  `math.Ceil(log2 (b - a))` is modelled exactly
by `Int.clog 2 (b - a)`. -/
def preCompute (vmin vmax : ℚ) (length : ℤ) : FPEncoder :=
  let bPow : ℤ := Int.clog 2 (vmax - vmin)
  let dPow : ℤ := 8 * length - 1
  let sF : ℚ := 2 ^ (dPow - bPow)
  { a := vmin
    b := vmax
    bPow := bPow
    dPow := dPow
    sF := sF
    sR := 2 ^ (bPow - dPow)
    zOffset := if vmin < 0 ∧ 0 < vmax then sF * vmin - ⌊sF * vmin⌋ else 0
    fieldLength := length }

/-- Construction-time errors of fpencoder.go. -/
inductive ConstructError where
  | invalidFieldLength
  | precisionUnrepresentable
deriving DecidableEq

/-- `NewFPEncoderWithLength` of fpencoder.go. -/
def NewFPEncoderWithLength (vmin vmax : ℚ) (length : ℤ) :
    Except ConstructError FPEncoder :=
  if length = 1 ∨ length = 2 ∨ length = 4 ∨ length = 8 then
    .ok (preCompute vmin vmax length)
  else
    .error .invalidFieldLength

/-- The float `bits` computed by `NewFPEncoderWithPrecision`:
`math.Ceil(log2((max-min)/precision) + 1)`, which is
`⌈log2 ((max-min)/precision)⌉ + 1` exactly. -/
def precisionBits (vmin vmax precision : ℚ) : ℤ :=
  Int.clog 2 ((vmax - vmin) / precision) + 1

/-- The float `length` computed by `NewFPEncoderWithPrecision`:
`math.Ceil(bits / 8)`. -/
def bytesNeeded (vmin vmax precision : ℚ) : ℤ :=
  ⌈(precisionBits vmin vmax precision : ℚ) / 8⌉

/-- `NewFPEncoderWithPrecision` of fpencoder.go. -/
def NewFPEncoderWithPrecision (vmin vmax precision : ℚ) :
    Except ConstructError FPEncoder :=
  let length := bytesNeeded vmin vmax precision
  if length ≤ 2 then .ok (preCompute vmin vmax length)
  else if length ≤ 4 then .ok (preCompute vmin vmax 4)
  else if length ≤ 8 then .ok (preCompute vmin vmax 8)
  else .error .precisionUnrepresentable

/-- Encode-time outcomes of fpencoder.go; `panicked` models the Go runtime
panic raised by the write `encoded[0] = …` when the buffer allocated with
`make([]byte, fieldLength)` is empty (or `make` itself on a negative
length). -/
inductive EncodeError where
  | outOfRange
  | panicked
deriving DecidableEq

/-- The sentinel branch of `Encode`: allocate `fieldLength` zero bytes and
write the flag into index 0 (a runtime panic when the buffer is empty). -/
def sentinelEncode (fpe : FPEncoder) (flag : ℕ) : Except EncodeError (List ℕ) :=
  let buf := List.replicate fpe.fieldLength.toNat 0
  if 0 < buf.length then .ok (buf.set 0 flag) else .error .panicked

/-- Big-endian serialization of a natural number into `w` bytes, as
produced by `binary.Write(b, binary.BigEndian, uintNN(d))` (and
`b.WriteByte(byte(d))` for `w = 1`); wraps modulo `256 ^ w`. -/
def beBytes : ℕ → ℕ → List ℕ
  | 0, _ => []
  | w + 1, n => beBytes w (n / 256) ++ [n % 256]

/-- Big-endian reading of a byte slice as an unsigned integer, as done by
`binary.BigEndian.UintNN(bytes)` (and `float64(int(bytes[0]))` for
one-byte fields). -/
def beToNat (bs : List ℕ) : ℕ :=
  bs.foldl (fun acc b => 256 * acc + b) 0

/-- `Encode` of fpencoder.go.  The sentinel comparisons come first, then
the range check, then the quantization `d = ⌊sF·(val-a) + zOffset⌋` and
the big-endian write of the switch statement (whose default case leaves
the output buffer empty). -/
def Encode (fpe : FPEncoder) (val : GoFloat) : Except EncodeError (List ℕ) :=
  match val with
  | .posInf => sentinelEncode fpe 0xc8
  | .negInf => sentinelEncode fpe 0xe8
  | .nan => sentinelEncode fpe 0xd0
  | .finite v =>
    if v < fpe.a ∨ fpe.b < v then .error .outOfRange
    else
      let d : ℤ := ⌊fpe.sF * (v - fpe.a) + fpe.zOffset⌋
      if fpe.fieldLength = 1 ∨ fpe.fieldLength = 2 ∨ fpe.fieldLength = 4 ∨
          fpe.fieldLength = 8 then
        .ok (beBytes fpe.fieldLength.toNat d.toNat)
      else
        .ok []

/-- Decode-time outcomes of fpencoder.go; `panicked` models the Go runtime
panic raised by the read `bytes[0]` when the input is empty (possible only
when `fieldLength = 0`, since the length check runs first). -/
inductive DecodeError where
  | lengthMismatch
  | decodedOutOfRange
  | panicked
deriving DecidableEq

/-- `Decode` of fpencoder.go: length check, sentinel first-byte checks,
then the big-endian read of the switch statement (whose default case
leaves `l = 0`) and the reconstruction `val = sR·(l - zOffset) + a` with
its range check. -/
def Decode (fpe : FPEncoder) (bs : List ℕ) : Except DecodeError GoFloat :=
  if (bs.length : ℤ) ≠ fpe.fieldLength then .error .lengthMismatch
  else
    match bs with
    | [] => .error .panicked
    | b0 :: _ =>
      if b0 = 0xc8 then .ok .posInf
      else if b0 = 0xe8 then .ok .negInf
      else if b0 = 0xd0 then .ok .nan
      else
        let l : ℚ :=
          if fpe.fieldLength = 1 ∨ fpe.fieldLength = 2 ∨ fpe.fieldLength = 4 ∨
              fpe.fieldLength = 8 then
            (beToNat bs : ℚ)
          else 0
        let val := fpe.sR * (l - fpe.zOffset) + fpe.a
        if val < fpe.a ∨ fpe.b < val then .error .decodedOutOfRange
        else .ok (.finite val)

/-! ### Helper lemmas about the embedding -/

/-- `Int.clog 2` is at most any exponent whose power of two dominates. -/
lemma clog2_le_of_le {x : ℚ} {k : ℤ} (hx : 0 < x) (h : x ≤ (2:ℚ) ^ k) :
    Int.clog 2 x ≤ k := by
  have h2 := Int.le_zpow_iff_clog_le (R := ℚ) (b := 2) (x := k) (r := x) one_lt_two hx
  rw [Nat.cast_ofNat] at h2
  exact h2.mp h

/-- `Int.clog 2` exceeds any exponent whose power of two is undershot. -/
lemma le_clog2_of_lt {x : ℚ} {k : ℤ} (hx : 0 < x) (h : (2:ℚ) ^ (k - 1) < x) :
    k ≤ Int.clog 2 x := by
  by_contra hlt
  push_neg at hlt
  have h3 : Int.clog 2 x ≤ k - 1 := by omega
  have h4 := Int.le_zpow_iff_clog_le (R := ℚ) (b := 2) (x := k - 1) (r := x) one_lt_two hx
  rw [Nat.cast_ofNat] at h4
  linarith [h4.mpr h3]

/-- Evaluation rule for `Int.clog 2` by bracketing between powers of two. -/
lemma clog2_eq {x : ℚ} {k : ℤ} (h1 : (2:ℚ) ^ (k - 1) < x) (h2 : x ≤ (2:ℚ) ^ k) :
    Int.clog 2 x = k :=
  le_antisymm (clog2_le_of_le (lt_trans (zpow_pos two_pos _) h1) h2)
    (le_clog2_of_lt (lt_trans (zpow_pos two_pos _) h1) h1)

lemma beBytes_length (w n : ℕ) : (beBytes w n).length = w := by
  induction w generalizing n with
  | zero => simp [beBytes]
  | succ w ih => simp [beBytes, ih]

lemma beToNat_append (bs : List ℕ) (y : ℕ) :
    beToNat (bs ++ [y]) = 256 * beToNat bs + y := by
  simp [beToNat, List.foldl_append]

/-- Reading back a big-endian serialization recovers the value when it fits
in `w` bytes. -/
lemma beToNat_beBytes {w n : ℕ} (h : n < 256 ^ w) :
    beToNat (beBytes w n) = n := by
  induction w generalizing n with
  | zero =>
    interval_cases n
    simp [beBytes, beToNat]
  | succ w ih =>
    have hdiv : n / 256 < 256 ^ w := by
      rw [Nat.div_lt_iff_lt_mul (by norm_num)]
      calc n < 256 ^ (w + 1) := h
      _ = 256 ^ w * 256 := by ring
    rw [beBytes, beToNat_append, ih hdiv]
    omega

/-- The leading byte of a `w`-byte big-endian serialization. -/
lemma beBytes_headq {w n : ℕ} (hw : 0 < w) (h : n < 256 ^ w) :
    (beBytes w n).head? = some (n / 256 ^ (w - 1)) := by
  induction w generalizing n with
  | zero => omega
  | succ w ih =>
    rw [beBytes, List.head?_append]
    rcases Nat.eq_zero_or_pos w with hw0 | hw0
    · subst hw0
      simp [beBytes]
      omega
    · have hdiv : n / 256 < 256 ^ w := by
        rw [Nat.div_lt_iff_lt_mul (by norm_num)]
        calc n < 256 ^ (w + 1) := h
        _ = 256 ^ w * 256 := by ring
      rw [ih hw0 hdiv]
      simp only [Option.or_some]
      congr 1
      rw [Nat.div_div_eq_div_mul]
      congr 1
      rw [← pow_succ']
      congr 1
      omega

lemma preCompute_a (vmin vmax : ℚ) (L : ℤ) : (preCompute vmin vmax L).a = vmin := rfl

lemma preCompute_b (vmin vmax : ℚ) (L : ℤ) : (preCompute vmin vmax L).b = vmax := rfl

lemma preCompute_fieldLength (vmin vmax : ℚ) (L : ℤ) :
    (preCompute vmin vmax L).fieldLength = L := rfl

lemma preCompute_bPow (vmin vmax : ℚ) (L : ℤ) :
    (preCompute vmin vmax L).bPow = Int.clog 2 (vmax - vmin) := rfl

lemma preCompute_dPow (vmin vmax : ℚ) (L : ℤ) :
    (preCompute vmin vmax L).dPow = 8 * L - 1 := rfl

lemma preCompute_sF (vmin vmax : ℚ) (L : ℤ) :
    (preCompute vmin vmax L).sF =
      2 ^ ((preCompute vmin vmax L).dPow - (preCompute vmin vmax L).bPow) := rfl

lemma preCompute_sR (vmin vmax : ℚ) (L : ℤ) :
    (preCompute vmin vmax L).sR =
      2 ^ ((preCompute vmin vmax L).bPow - (preCompute vmin vmax L).dPow) := rfl

lemma preCompute_zOffset (vmin vmax : ℚ) (L : ℤ) :
    (preCompute vmin vmax L).zOffset =
      if vmin < 0 ∧ 0 < vmax then
        (preCompute vmin vmax L).sF * vmin - ⌊(preCompute vmin vmax L).sF * vmin⌋
      else 0 := rfl

/-- The zero-centering offset is a fractional part, hence nonnegative. -/
lemma preCompute_zOffset_nonneg (vmin vmax : ℚ) (L : ℤ) :
    0 ≤ (preCompute vmin vmax L).zOffset := by
  rw [preCompute_zOffset]
  split
  · rw [Int.self_sub_floor]
    exact Int.fract_nonneg _
  · exact le_refl 0

/-- The zero-centering offset is a fractional part, hence below one. -/
lemma preCompute_zOffset_lt_one (vmin vmax : ℚ) (L : ℤ) :
    (preCompute vmin vmax L).zOffset < 1 := by
  rw [preCompute_zOffset]
  split
  · rw [Int.self_sub_floor]
    exact Int.fract_lt_one _
  · exact one_pos

/-- The configured range never exceeds `2 ^ bPow`: the defining property of
the ceiling logarithm. -/
lemma preCompute_range_le (vmin vmax : ℚ) (L : ℤ) :
    vmax - vmin ≤ 2 ^ (preCompute vmin vmax L).bPow := by
  rw [preCompute_bPow]
  have h := Int.self_le_zpow_clog (R := ℚ) (b := 2) one_lt_two (vmax - vmin)
  rwa [Nat.cast_ofNat] at h

/-- On the ordinary numeric path, `Encode` emits the big-endian bytes of
the quantized value `⌊sF·(v - a) + zOffset⌋`. -/
lemma Encode_finite_eq (c : FPEncoder)
    (hL : c.fieldLength = 1 ∨ c.fieldLength = 2 ∨ c.fieldLength = 4 ∨ c.fieldLength = 8)
    {v : ℚ} (h1 : c.a ≤ v) (h2 : v ≤ c.b) :
    Encode c (.finite v) =
      .ok (beBytes c.fieldLength.toNat (⌊c.sF * (v - c.a) + c.zOffset⌋).toNat) := by
  simp only [Encode]
  rw [if_neg (by push_neg; exact ⟨h1, h2⟩), if_pos hL]

/-- Bounds on the quantized integer: it is nonnegative and (as a rational)
below `2 ^ dPow + 1`. -/
lemma floor_t_bounds (c : FPEncoder)
    (hsF : c.sF = 2 ^ (c.dPow - c.bPow))
    (hba : c.b - c.a ≤ 2 ^ c.bPow)
    (hz0 : 0 ≤ c.zOffset) (hz1 : c.zOffset < 1)
    {v : ℚ} (h1 : c.a ≤ v) (h2 : v ≤ c.b) :
    0 ≤ ⌊c.sF * (v - c.a) + c.zOffset⌋ ∧
      (⌊c.sF * (v - c.a) + c.zOffset⌋ : ℚ) < 2 ^ c.dPow + 1 := by
  have hsFpos : (0:ℚ) < c.sF := by rw [hsF]; exact zpow_pos two_pos _
  constructor
  · exact Int.floor_nonneg.mpr
      (add_nonneg (mul_nonneg hsFpos.le (sub_nonneg.mpr h1)) hz0)
  · have hb1 : c.sF * (v - c.a) ≤ c.sF * (c.b - c.a) :=
      mul_le_mul_of_nonneg_left (by linarith) hsFpos.le
    have hb2 : c.sF * (c.b - c.a) ≤ c.sF * 2 ^ c.bPow :=
      mul_le_mul_of_nonneg_left hba hsFpos.le
    have hb3 : c.sF * (2:ℚ) ^ c.bPow = 2 ^ c.dPow := by
      rw [hsF, ← zpow_add₀ (two_ne_zero (α := ℚ)), sub_add_cancel]
    have hb4 := Int.floor_le (c.sF * (v - c.a) + c.zOffset)
    linarith

/-- The quantized integer fits in `fieldLength` bytes. -/
lemma quantized_fits (c : FPEncoder)
    (hL : c.fieldLength = 1 ∨ c.fieldLength = 2 ∨ c.fieldLength = 4 ∨ c.fieldLength = 8)
    (hd : c.dPow = 8 * c.fieldLength - 1)
    (hsF : c.sF = 2 ^ (c.dPow - c.bPow))
    (hba : c.b - c.a ≤ 2 ^ c.bPow)
    (hz0 : 0 ≤ c.zOffset) (hz1 : c.zOffset < 1)
    {v : ℚ} (h1 : c.a ≤ v) (h2 : v ≤ c.b) :
    (⌊c.sF * (v - c.a) + c.zOffset⌋).toNat ≤ 2 ^ (c.dPow.toNat) ∧
      (⌊c.sF * (v - c.a) + c.zOffset⌋).toNat < 256 ^ c.fieldLength.toNat ∧
      c.dPow.toNat + 1 = 8 * c.fieldLength.toNat := by
  obtain ⟨hd0, hdub⟩ := floor_t_bounds c hsF hba hz0 hz1 h1 h2
  have hflpos : 0 < c.fieldLength := by rcases hL with h | h | h | h <;> omega
  have hwcast : (c.fieldLength.toNat : ℤ) = c.fieldLength := Int.toNat_of_nonneg hflpos.le
  have hdPnn : 0 ≤ c.dPow := by omega
  have hNcast : (c.dPow.toNat : ℤ) = c.dPow := Int.toNat_of_nonneg hdPnn
  have hNw : c.dPow.toNat + 1 = 8 * c.fieldLength.toNat := by omega
  have hMcast : (((2 ^ c.dPow.toNat : ℕ) : ℤ) : ℚ) = (2:ℚ) ^ c.dPow := by
    conv_rhs => rw [← hNcast, zpow_natCast]
    push_cast
    ring
  have hdle : ⌊c.sF * (v - c.a) + c.zOffset⌋ ≤ ((2 ^ c.dPow.toNat : ℕ) : ℤ) := by
    have h3 : (⌊c.sF * (v - c.a) + c.zOffset⌋ : ℚ) < (((2 ^ c.dPow.toNat : ℕ) : ℤ) : ℚ) + 1 := by
      rw [hMcast]
      exact hdub
    have h4 : ⌊c.sF * (v - c.a) + c.zOffset⌋ < ((2 ^ c.dPow.toNat : ℕ) : ℤ) + 1 := by
      exact_mod_cast h3
    omega
  have hMpos : 0 < 2 ^ c.dPow.toNat := pow_pos (by norm_num) _
  refine ⟨by omega, ?_, hNw⟩
  have h256 : (256:ℕ) ^ c.fieldLength.toNat = 2 ^ (c.dPow.toNat + 1) := by
    rw [show (256:ℕ) = 2 ^ 8 by norm_num, ← pow_mul, hNw]
  rw [h256, pow_succ]
  omega

/-- The leading encoded byte never reaches the sentinel range: it is at
most `0x80`. -/
lemma leading_byte_le (c : FPEncoder)
    (hL : c.fieldLength = 1 ∨ c.fieldLength = 2 ∨ c.fieldLength = 4 ∨ c.fieldLength = 8)
    (hd : c.dPow = 8 * c.fieldLength - 1)
    (hsF : c.sF = 2 ^ (c.dPow - c.bPow))
    (hba : c.b - c.a ≤ 2 ^ c.bPow)
    (hz0 : 0 ≤ c.zOffset) (hz1 : c.zOffset < 1)
    {v : ℚ} (h1 : c.a ≤ v) (h2 : v ≤ c.b) :
    (⌊c.sF * (v - c.a) + c.zOffset⌋).toNat / 256 ^ (c.fieldLength.toNat - 1) ≤ 128 := by
  obtain ⟨hdle, hdlt, hNw⟩ := quantized_fits c hL hd hsF hba hz0 hz1 h1 h2
  have hN7 : 7 ≤ c.dPow.toNat := by
    have hflpos : 0 < c.fieldLength := by rcases hL with h | h | h | h <;> omega
    omega
  have h256 : (256:ℕ) ^ (c.fieldLength.toNat - 1) = 2 ^ (c.dPow.toNat - 7) := by
    rw [show (256:ℕ) = 2 ^ 8 by norm_num, ← pow_mul]
    congr 1
    omega
  rw [h256]
  calc (⌊c.sF * (v - c.a) + c.zOffset⌋).toNat / 2 ^ (c.dPow.toNat - 7)
      ≤ 2 ^ c.dPow.toNat / 2 ^ (c.dPow.toNat - 7) := Nat.div_le_div_right hdle
  _ = 2 ^ (c.dPow.toNat - (c.dPow.toNat - 7)) := Nat.pow_div (by omega) (by norm_num)
  _ = 2 ^ 7 := by congr 1; omega
  _ = 128 := by norm_num

/-- `Decode` on a correct-length input whose first byte is not a sentinel
reduces to the reconstruction formula with its range check. -/
lemma Decode_data_eq (c : FPEncoder) (b0 : ℕ) (rest : List ℕ)
    (hlen : (((b0 :: rest).length : ℕ) : ℤ) = c.fieldLength)
    (hc8 : b0 ≠ 0xc8) (he8 : b0 ≠ 0xe8) (hd0 : b0 ≠ 0xd0)
    (hL : c.fieldLength = 1 ∨ c.fieldLength = 2 ∨ c.fieldLength = 4 ∨ c.fieldLength = 8) :
    Decode c (b0 :: rest) =
      if c.sR * ((beToNat (b0 :: rest) : ℚ) - c.zOffset) + c.a < c.a ∨
          c.b < c.sR * ((beToNat (b0 :: rest) : ℚ) - c.zOffset) + c.a then
        .error .decodedOutOfRange
      else .ok (.finite (c.sR * ((beToNat (b0 :: rest) : ℚ) - c.zOffset) + c.a)) := by
  simp only [Decode]
  rw [if_neg (by rw [hlen]; simp), if_neg hc8, if_neg he8, if_neg hd0, if_pos hL]

/-- Core round-trip fact: decoding the encoded bytes of an in-range value
succeeds (given the zero-offset proviso) and reproduces the value to
within `sR`, strictly. -/
lemma Decode_Encode_finite (c : FPEncoder)
    (hL : c.fieldLength = 1 ∨ c.fieldLength = 2 ∨ c.fieldLength = 4 ∨ c.fieldLength = 8)
    (hd : c.dPow = 8 * c.fieldLength - 1)
    (hsF : c.sF = 2 ^ (c.dPow - c.bPow))
    (hsR : c.sR = 2 ^ (c.bPow - c.dPow))
    (hba : c.b - c.a ≤ 2 ^ c.bPow)
    (hz0 : 0 ≤ c.zOffset) (hz1 : c.zOffset < 1)
    {v : ℚ} (h1 : c.a ≤ v) (h2 : v ≤ c.b)
    (hz : c.zOffset = 0 ∨ 1 ≤ c.sF * (v - c.a) + c.zOffset) :
    ∃ bs w, Encode c (.finite v) = .ok bs ∧ Decode c bs = .ok (.finite w) ∧
      0 ≤ v - w ∧ v - w < c.sR := by
  have hsFpos : (0:ℚ) < c.sF := by rw [hsF]; exact zpow_pos two_pos _
  have hsRpos : (0:ℚ) < c.sR := by rw [hsR]; exact zpow_pos two_pos _
  have hFR : c.sF * c.sR = 1 := by
    rw [hsF, hsR, ← zpow_add₀ (two_ne_zero (α := ℚ))]
    rw [show c.dPow - c.bPow + (c.bPow - c.dPow) = 0 by ring, zpow_zero]
  obtain ⟨hd0, _⟩ := floor_t_bounds c hsF hba hz0 hz1 h1 h2
  obtain ⟨hdle, hdlt, hNw⟩ := quantized_fits c hL hd hsF hba hz0 hz1 h1 h2
  have hhle := leading_byte_le c hL hd hsF hba hz0 hz1 h1 h2
  have hflpos : 0 < c.fieldLength := by rcases hL with h | h | h | h <;> omega
  have hwcast : (c.fieldLength.toNat : ℤ) = c.fieldLength := Int.toNat_of_nonneg hflpos.le
  have hwpos : 0 < c.fieldLength.toNat := by omega
  have henc := Encode_finite_eq c hL h1 h2
  set d : ℤ := ⌊c.sF * (v - c.a) + c.zOffset⌋ with hdd
  set bs : List ℕ := beBytes c.fieldLength.toNat d.toNat with hbs
  have hlen : bs.length = c.fieldLength.toNat := beBytes_length _ _
  have hne : bs ≠ [] := by
    intro hcon
    rw [hcon] at hlen
    simp at hlen
    omega
  obtain ⟨b0, rest, hcons⟩ := List.exists_cons_of_ne_nil hne
  have hhead : bs.head? = some (d.toNat / 256 ^ (c.fieldLength.toNat - 1)) :=
    beBytes_headq hwpos hdlt
  have hb0 : b0 = d.toNat / 256 ^ (c.fieldLength.toNat - 1) := by
    rw [hcons] at hhead
    simpa using hhead
  have hb0le : b0 ≤ 128 := by rw [hb0]; exact hhle
  have hread : beToNat bs = d.toNat := beToNat_beBytes hdlt
  have hlen2 : (((b0 :: rest).length : ℕ) : ℤ) = c.fieldLength := by
    rw [← hcons, hlen, hwcast]
  have hdec := Decode_data_eq c b0 rest hlen2 (by omega) (by omega) (by omega) hL
  rw [← hcons, hread] at hdec
  have hdcast : ((d.toNat : ℕ) : ℚ) = (d : ℚ) := by
    exact_mod_cast Int.toNat_of_nonneg hd0
  set val : ℚ := c.sR * ((d : ℚ) - c.zOffset) + c.a with hval
  rw [hdcast] at hdec
  have hfl2 : (d : ℚ) ≤ c.sF * (v - c.a) + c.zOffset := Int.floor_le _
  have hub : val ≤ v := by
    have hstep : c.sR * ((d : ℚ) - c.zOffset) ≤ c.sR * (c.sF * (v - c.a)) :=
      mul_le_mul_of_nonneg_left (by linarith) hsRpos.le
    have hcol : c.sR * (c.sF * (v - c.a)) = v - c.a := by
      rw [← mul_assoc, mul_comm c.sR c.sF, hFR, one_mul]
    rw [hval]
    linarith
  have hlb : c.a ≤ val := by
    have hzd : c.zOffset ≤ (d : ℚ) := by
      rcases hz with hzz | h1t
      · rw [hzz]
        exact_mod_cast hd0
      · have : (1:ℤ) ≤ d := Int.le_floor.mpr (by exact_mod_cast h1t)
        have h1d : (1:ℚ) ≤ (d:ℚ) := by exact_mod_cast this
        linarith
    have : 0 ≤ c.sR * ((d : ℚ) - c.zOffset) :=
      mul_nonneg hsRpos.le (by linarith)
    rw [hval]
    linarith
  have herr : v - val < c.sR := by
    have hlt1 : c.sF * (v - c.a) + c.zOffset < (d : ℚ) + 1 := Int.lt_floor_add_one _
    have hstep : c.sR * (c.sF * (v - c.a)) - c.sR * ((d : ℚ) - c.zOffset) =
        c.sR * ((c.sF * (v - c.a) + c.zOffset) - (d : ℚ)) := by ring
    have hcol : c.sR * (c.sF * (v - c.a)) = v - c.a := by
      rw [← mul_assoc, mul_comm c.sR c.sF, hFR, one_mul]
    have hprod : c.sR * ((c.sF * (v - c.a) + c.zOffset) - (d : ℚ)) < c.sR * 1 :=
      mul_lt_mul_of_pos_left (by linarith) hsRpos
    rw [hval]
    linarith
  refine ⟨bs, val, henc, ?_, by linarith, herr⟩
  rw [hdec, if_neg (by push_neg; exact ⟨hlb, by linarith⟩)]

/-- Inversion for the explicit-width constructor: success yields exactly
the precomputed codec, and certifies the width was permitted. -/
lemma NewFPEncoderWithLength_ok {vmin vmax : ℚ} {L : ℤ} {c : FPEncoder}
    (h : NewFPEncoderWithLength vmin vmax L = .ok c) :
    c = preCompute vmin vmax L ∧ (L = 1 ∨ L = 2 ∨ L = 4 ∨ L = 8) := by
  by_cases hL : L = 1 ∨ L = 2 ∨ L = 4 ∨ L = 8
  · rw [NewFPEncoderWithLength, if_pos hL] at h
    exact ⟨(Except.ok.inj h).symm, hL⟩
  · rw [NewFPEncoderWithLength, if_neg hL] at h
    exact absurd h (by simp)

/-- Writing the sentinel flag into a freshly zeroed nonempty buffer. -/
lemma replicate_set_zero {w : ℕ} (hw : 0 < w) (flag : ℕ) :
    (List.replicate w (0:ℕ)).set 0 flag = flag :: List.replicate (w - 1) 0 := by
  cases w with
  | zero => omega
  | succ w => simp [List.replicate_succ]

/-- The sentinel branch succeeds on any codec with a positive width and
writes the flag followed by zeros. -/
lemma sentinelEncode_eq {c : FPEncoder} (hpos : 0 < c.fieldLength) (flag : ℕ) :
    sentinelEncode c flag = .ok (flag :: List.replicate (c.fieldLength.toNat - 1) 0) := by
  have hw : 0 < c.fieldLength.toNat := by omega
  rw [sentinelEncode]
  simp only [List.length_replicate]
  rw [if_pos hw, replicate_set_zero hw]

/-- C3: On every codec built by the explicit-width constructor, encoding
`+Inf`, `-Inf` and `NaN` succeeds and produces exactly `fieldLength` bytes:
the sentinel first byte `0xC8` / `0xE8` / `0xD0` followed by zeros. -/
theorem C3_sentinel_encode (vmin vmax : ℚ) (L : ℤ) (c : FPEncoder)
    (hcon : NewFPEncoderWithLength vmin vmax L = .ok c) :
    Encode c .posInf = .ok (0xc8 :: List.replicate (c.fieldLength.toNat - 1) 0) ∧
    Encode c .negInf = .ok (0xe8 :: List.replicate (c.fieldLength.toNat - 1) 0) ∧
    Encode c .nan = .ok (0xd0 :: List.replicate (c.fieldLength.toNat - 1) 0) ∧
    ((0xc8 :: List.replicate (c.fieldLength.toNat - 1) 0).length : ℤ) = c.fieldLength := by
  obtain ⟨rfl, hL⟩ := NewFPEncoderWithLength_ok hcon
  have hpos : 0 < (preCompute vmin vmax L).fieldLength := by
    rw [preCompute_fieldLength]
    rcases hL with h | h | h | h <;> omega
  refine ⟨sentinelEncode_eq hpos _, sentinelEncode_eq hpos _, sentinelEncode_eq hpos _, ?_⟩
  simp only [List.length_cons, List.length_replicate]
  omega

/-- C3 witness at the codec over `[0, 10]` with width 2. -/
theorem C3_sentinel_encode_witness :
    Encode (preCompute 0 10 2) .posInf =
      .ok (0xc8 :: List.replicate ((preCompute 0 10 2).fieldLength.toNat - 1) 0) ∧
    Encode (preCompute 0 10 2) .negInf =
      .ok (0xe8 :: List.replicate ((preCompute 0 10 2).fieldLength.toNat - 1) 0) ∧
    Encode (preCompute 0 10 2) .nan =
      .ok (0xd0 :: List.replicate ((preCompute 0 10 2).fieldLength.toNat - 1) 0) ∧
    ((0xc8 :: List.replicate ((preCompute 0 10 2).fieldLength.toNat - 1) 0).length : ℤ) =
      (preCompute 0 10 2).fieldLength :=
  C3_sentinel_encode 0 10 2 (preCompute 0 10 2) (by rw [NewFPEncoderWithLength, if_pos] <;> norm_num)

/-- C4: On every codec built by the explicit-width constructor, decoding a
correct-length byte sequence with sentinel first byte `0xC8` / `0xE8` /
`0xD0` yields `+Inf` / `-Inf` / `NaN`, whatever the remaining bytes are. -/
theorem C4_sentinel_decode (vmin vmax : ℚ) (L : ℤ) (c : FPEncoder)
    (hcon : NewFPEncoderWithLength vmin vmax L = .ok c)
    (rest : List ℕ) (hlen : ((rest.length + 1 : ℕ) : ℤ) = c.fieldLength) :
    Decode c (0xc8 :: rest) = .ok .posInf ∧
    Decode c (0xe8 :: rest) = .ok .negInf ∧
    Decode c (0xd0 :: rest) = .ok .nan := by
  refine ⟨?_, ?_, ?_⟩ <;>
  · simp only [Decode]
    rw [if_neg (by simp only [List.length_cons]; rw [hlen]; simp)]
    norm_num

/-- C4 witness: a 2-byte codec decoding sentinel-headed inputs with a
nonzero trailing byte. -/
theorem C4_sentinel_decode_witness :
    Decode (preCompute 0 10 2) (0xc8 :: [55]) = .ok .posInf ∧
    Decode (preCompute 0 10 2) (0xe8 :: [55]) = .ok .negInf ∧
    Decode (preCompute 0 10 2) (0xd0 :: [55]) = .ok .nan :=
  C4_sentinel_decode 0 10 2 (preCompute 0 10 2)
    (by rw [NewFPEncoderWithLength, if_pos] <;> norm_num) [55]
    (by norm_num [preCompute_fieldLength])

/-- C5: On every codec built by the explicit-width constructor, `Encode`
fails with `outOfRange` exactly on finite, non-NaN inputs outside
`[min, max]`; the sentinel classes are intercepted first and never raise
this error. -/
theorem C5_outOfRange_iff (vmin vmax : ℚ) (L : ℤ) (c : FPEncoder)
    (hcon : NewFPEncoderWithLength vmin vmax L = .ok c) (val : GoFloat) :
    Encode c val = .error .outOfRange ↔
      ∃ q : ℚ, val = .finite q ∧ (q < vmin ∨ vmax < q) := by
  obtain ⟨rfl, hL⟩ := NewFPEncoderWithLength_ok hcon
  have hpos : 0 < (preCompute vmin vmax L).fieldLength := by
    rw [preCompute_fieldLength]
    rcases hL with h | h | h | h <;> omega
  cases val with
  | finite q =>
    simp only [Encode, preCompute_a, preCompute_b]
    by_cases hq : q < vmin ∨ vmax < q
    · rw [if_pos hq]
      simp [hq]
    · rw [if_neg hq]
      constructor
      · intro h
        split at h <;> exact absurd h (by simp)
      · rintro ⟨q', hq', hout⟩
        cases hq'
        exact absurd hout hq
  | posInf =>
    rw [show Encode (preCompute vmin vmax L) .posInf = sentinelEncode _ 0xc8 from rfl,
      sentinelEncode_eq hpos]
    simp
  | negInf =>
    rw [show Encode (preCompute vmin vmax L) .negInf = sentinelEncode _ 0xe8 from rfl,
      sentinelEncode_eq hpos]
    simp
  | nan =>
    rw [show Encode (preCompute vmin vmax L) .nan = sentinelEncode _ 0xd0 from rfl,
      sentinelEncode_eq hpos]
    simp

/-- C5 witness: on the codec over `[0, 10]` with width 1, the value 11 is
rejected as out of range and `+Inf` is not. -/
theorem C5_outOfRange_iff_witness :
    (Encode (preCompute 0 10 1) (.finite 11) = .error .outOfRange ↔
      ∃ q : ℚ, GoFloat.finite 11 = .finite q ∧ (q < 0 ∨ 10 < q)) ∧
    (Encode (preCompute 0 10 1) .posInf = .error .outOfRange ↔
      ∃ q : ℚ, GoFloat.posInf = .finite q ∧ (q < 0 ∨ 10 < q)) :=
  ⟨C5_outOfRange_iff 0 10 1 (preCompute 0 10 1)
      (by rw [NewFPEncoderWithLength, if_pos] <;> norm_num) (.finite 11),
    C5_outOfRange_iff 0 10 1 (preCompute 0 10 1)
      (by rw [NewFPEncoderWithLength, if_pos] <;> norm_num) .posInf⟩

/-- The codec over `[0, 3/2]` with one byte, fully evaluated. -/
lemma preCompute_0_32_1 :
    preCompute 0 (3/2) 1 =
      { a := 0, b := 3/2, bPow := 1, dPow := 7, sF := 64, sR := 1/64,
        zOffset := 0, fieldLength := 1 } := by
  have h : Int.clog 2 ((3/2 : ℚ) - 0) = 1 := by
    apply clog2_eq <;> norm_num
  simp only [preCompute, h]
  norm_num

/-- C1 is refuted as stated, in both of its parts.  First, on the validly
constructed codec over `[0, 3/2]` with one byte, the in-range value
`959/640` encodes to `[95]` and decodes to `95/64`, but the round-trip
error `9/640` exceeds the claimed bound
`(max - min) / 2 ^ dataExponent = 3/256`.  Second, on the validly
constructed codec over `[-1/10, 1]` with one byte (whose `zOffset` is
`3/5 > 0`), the in-range value `min = -1/10` encodes to `[0]` but decoding
that output fails with `decodedOutOfRange`, so `decode(encode(val))` does
not even succeed for every in-range `val`. -/
theorem C1_roundtrip_counterexample :
    ((0:ℚ) < 3/2 ∧
      NewFPEncoderWithLength 0 (3/2) 1 = .ok (preCompute 0 (3/2) 1) ∧
      Encode (preCompute 0 (3/2) 1) (.finite (959/640)) = .ok [95] ∧
      Decode (preCompute 0 (3/2) 1) [95] = .ok (.finite (95/64)) ∧
      ¬ (|(959/640 : ℚ) - 95/64| ≤
          ((3/2 : ℚ) - 0) / 2 ^ (preCompute 0 (3/2) 1).dPow)) ∧
    ((-1/10 : ℚ) < 1 ∧
      NewFPEncoderWithLength (-1/10) 1 1 = .ok (preCompute (-1/10) 1 1) ∧
      Encode (preCompute (-1/10) 1 1) (.finite (-1/10)) = .ok [0] ∧
      Decode (preCompute (-1/10) 1 1) [0] = .error .decodedOutOfRange) := by
  constructor
  · refine ⟨by norm_num, by rw [NewFPEncoderWithLength, if_pos] <;> norm_num, ?_, ?_, ?_⟩ <;>
      rw [preCompute_0_32_1]
    · rw [Encode_finite_eq _ (by norm_num) (by norm_num) (by norm_num)]
      have hfl : ⌊(64:ℚ) * (959/640 - 0) + 0⌋ = 95 := by
        rw [Int.floor_eq_iff]
        constructor <;> norm_num
      norm_num [hfl]
      decide
    · rw [Decode_data_eq _ 95 [] (by norm_num) (by norm_num) (by norm_num) (by norm_num)
        (by norm_num)]
      rw [if_neg (by push_neg; constructor <;> norm_num [beToNat])]
      norm_num [beToNat]
    · rw [show |(959/640 : ℚ) - 95/64| = 9/640 from by
        rw [show (959/640 : ℚ) - 95/64 = 9/640 from by norm_num]
        exact abs_of_nonneg (by norm_num)]
      norm_num
  · have hbP : (preCompute (-1/10 : ℚ) 1 1).bPow = 1 := by
      rw [preCompute_bPow]
      apply clog2_eq <;> norm_num
    have hdP : (preCompute (-1/10 : ℚ) 1 1).dPow = 7 := by
      rw [preCompute_dPow]
      norm_num
    have hsF : (preCompute (-1/10 : ℚ) 1 1).sF = 64 := by
      rw [preCompute_sF, hdP, hbP]
      norm_num
    have hsR : (preCompute (-1/10 : ℚ) 1 1).sR = 1/64 := by
      rw [preCompute_sR, hdP, hbP]
      norm_num
    have hz : (preCompute (-1/10 : ℚ) 1 1).zOffset = 3/5 := by
      rw [preCompute_zOffset, if_pos (by norm_num), hsF]
      rw [show ⌊(64:ℚ) * (-1/10)⌋ = -7 from by
        rw [Int.floor_eq_iff]
        constructor <;> norm_num]
      norm_num
    refine ⟨by norm_num, by rw [NewFPEncoderWithLength, if_pos] <;> norm_num, ?_, ?_⟩
    · rw [Encode_finite_eq _ (by rw [preCompute_fieldLength]; norm_num)
        (by norm_num [preCompute_a]) (by norm_num [preCompute_b])]
      rw [preCompute_fieldLength, preCompute_a, hsF, hz]
      rw [show ⌊(64:ℚ) * (-1/10 - -1/10) + 3/5⌋ = 0 from by
        rw [Int.floor_eq_iff]
        constructor <;> norm_num]
      decide
    · rw [Decode_data_eq _ 0 [] (by norm_num [preCompute_fieldLength]) (by norm_num)
        (by norm_num) (by norm_num) (by rw [preCompute_fieldLength]; norm_num)]
      rw [if_pos]
      rw [hsR, hz, preCompute_a]
      left
      norm_num [beToNat]

/-- C1 (amended): encoding an in-range finite value succeeds
unconditionally; and provided `zOffset = 0` or the quantization argument
`sF·(v - min) + zOffset` is at least 1, decoding the encoded bytes
succeeds and returns a value below `val` by less than
`reverseScale = 2 ^ (bPow - dPow)` (the claimed `(max-min)/2^dPow` bucket
width is exceeded whenever `max - min` is not a power of two, and decode
rejects values too close to `min` when `zOffset > 0`). -/
theorem C1_roundtrip_within_reverseScale (vmin vmax : ℚ) (L : ℤ) (c : FPEncoder)
    (hcon : NewFPEncoderWithLength vmin vmax L = .ok c)
    (v : ℚ) (h1 : vmin ≤ v) (h2 : v ≤ vmax) :
    (∃ bs, Encode c (.finite v) = .ok bs) ∧
    ((c.zOffset = 0 ∨ 1 ≤ c.sF * (v - vmin) + c.zOffset) →
      ∃ bs w, Encode c (.finite v) = .ok bs ∧ Decode c bs = .ok (.finite w) ∧
        0 ≤ v - w ∧ v - w < c.sR) := by
  obtain ⟨rfl, hL⟩ := NewFPEncoderWithLength_ok hcon
  have hLc : (preCompute vmin vmax L).fieldLength = 1 ∨
      (preCompute vmin vmax L).fieldLength = 2 ∨
      (preCompute vmin vmax L).fieldLength = 4 ∨
      (preCompute vmin vmax L).fieldLength = 8 := by
    rw [preCompute_fieldLength]
    exact hL
  constructor
  · exact ⟨_, Encode_finite_eq (preCompute vmin vmax L) hLc h1 h2⟩
  · intro hz
    exact Decode_Encode_finite (preCompute vmin vmax L) hLc
      (by rw [preCompute_dPow, preCompute_fieldLength])
      (preCompute_sF vmin vmax L)
      (preCompute_sR vmin vmax L)
      (preCompute_range_le vmin vmax L)
      (preCompute_zOffset_nonneg vmin vmax L)
      (preCompute_zOffset_lt_one vmin vmax L)
      h1 h2 hz

/-- C1 witness: on the codec over `[0, 1]` with one byte, encoding `1/2`
succeeds, and (its `zOffset` being 0) the decode undershoots by less than
`sR`. -/
theorem C1_roundtrip_witness :
    (∃ bs, Encode (preCompute 0 1 1) (.finite (1/2)) = .ok bs) ∧
    (∃ bs w, Encode (preCompute 0 1 1) (.finite (1/2)) = .ok bs ∧
      Decode (preCompute 0 1 1) bs = .ok (.finite w) ∧
      0 ≤ (1/2 : ℚ) - w ∧ (1/2 : ℚ) - w < (preCompute 0 1 1).sR) := by
  have h := C1_roundtrip_within_reverseScale 0 1 1 (preCompute 0 1 1)
    (by rw [NewFPEncoderWithLength, if_pos] <;> norm_num) (1/2)
    (by norm_num) (by norm_num)
  exact ⟨h.1, h.2 (Or.inl (by rw [preCompute_zOffset]; norm_num))⟩

/-- C2: on every codec built by the explicit-width constructor, for two
in-range finite values `x1 < x2` both encodes succeed and the byte
sequences, read as big-endian unsigned integers, are ordered. -/
theorem C2_encode_monotone (vmin vmax : ℚ) (L : ℤ) (c : FPEncoder)
    (hcon : NewFPEncoderWithLength vmin vmax L = .ok c)
    (x1 x2 : ℚ) (hx : x1 < x2) (ha1 : vmin ≤ x1) (hb1 : x1 ≤ vmax)
    (ha2 : vmin ≤ x2) (hb2 : x2 ≤ vmax) :
    ∃ bs1 bs2, Encode c (.finite x1) = .ok bs1 ∧ Encode c (.finite x2) = .ok bs2 ∧
      beToNat bs1 ≤ beToNat bs2 := by
  obtain ⟨rfl, hL⟩ := NewFPEncoderWithLength_ok hcon
  set c := preCompute vmin vmax L with hc
  have hLc : c.fieldLength = 1 ∨ c.fieldLength = 2 ∨ c.fieldLength = 4 ∨ c.fieldLength = 8 := by
    rw [hc, preCompute_fieldLength]
    exact hL
  have hdP : c.dPow = 8 * c.fieldLength - 1 := by
    rw [hc, preCompute_dPow, preCompute_fieldLength]
  have hsF := preCompute_sF vmin vmax L
  have hba := preCompute_range_le vmin vmax L
  have hz0 := preCompute_zOffset_nonneg vmin vmax L
  have hz1 := preCompute_zOffset_lt_one vmin vmax L
  have ha : c.a = vmin := rfl
  have hbb : c.b = vmax := rfl
  rw [← ha] at ha1 ha2
  rw [← hbb] at hb1 hb2
  obtain ⟨_, hfit1, _⟩ := quantized_fits c hLc hdP hsF hba hz0 hz1 ha1 hb1
  obtain ⟨_, hfit2, _⟩ := quantized_fits c hLc hdP hsF hba hz0 hz1 ha2 hb2
  refine ⟨_, _, Encode_finite_eq c hLc ha1 hb1, Encode_finite_eq c hLc ha2 hb2, ?_⟩
  rw [beToNat_beBytes hfit1, beToNat_beBytes hfit2]
  have hsFpos : (0:ℚ) < c.sF := by rw [hsF]; exact zpow_pos two_pos _
  have hmono : c.sF * (x1 - c.a) + c.zOffset ≤ c.sF * (x2 - c.a) + c.zOffset := by
    have := mul_le_mul_of_nonneg_left (by linarith : x1 - c.a ≤ x2 - c.a) hsFpos.le
    linarith
  have hfloor := Int.floor_le_floor hmono
  omega

/-- C2 witness: on the codec over `[0, 1]` with one byte, the encodings of
`0` and `1/2` are ordered. -/
theorem C2_encode_monotone_witness :
    ∃ bs1 bs2, Encode (preCompute 0 1 1) (.finite 0) = .ok bs1 ∧
      Encode (preCompute 0 1 1) (.finite (1/2)) = .ok bs2 ∧
      beToNat bs1 ≤ beToNat bs2 :=
  C2_encode_monotone 0 1 1 (preCompute 0 1 1)
    (by rw [NewFPEncoderWithLength, if_pos] <;> norm_num)
    0 (1/2) (by norm_num) (by norm_num) (by norm_num) (by norm_num) (by norm_num)

/-- C6: the explicit-width constructor fails with `invalidFieldLength`
exactly on widths outside {1, 2, 4, 8}; on success the codec carries the
configured bounds and width, `bPow` is the least exponent with
`2 ^ bPow ≥ max - min` (the ceiling base-2 logarithm), `dPow = 8·L - 1`,
the scales are the corresponding powers of two, and `zOffset` is the
fractional correction exactly when the range straddles zero. -/
theorem C6_width_constructor (vmin vmax : ℚ) (L : ℤ) (hab : vmin < vmax) :
    (NewFPEncoderWithLength vmin vmax L = .error .invalidFieldLength ↔
      ¬(L = 1 ∨ L = 2 ∨ L = 4 ∨ L = 8)) ∧
    ∀ c : FPEncoder, NewFPEncoderWithLength vmin vmax L = .ok c →
      c.a = vmin ∧ c.b = vmax ∧ c.fieldLength = L ∧
      vmax - vmin ≤ 2 ^ c.bPow ∧ (∀ z : ℤ, vmax - vmin ≤ (2:ℚ) ^ z → c.bPow ≤ z) ∧
      c.dPow = 8 * L - 1 ∧
      c.sF = 2 ^ (c.dPow - c.bPow) ∧
      c.sR = 2 ^ (c.bPow - c.dPow) ∧
      c.zOffset = (if vmin < 0 ∧ 0 < vmax then c.sF * vmin - ⌊c.sF * vmin⌋ else 0) := by
  constructor
  · constructor
    · intro h hL
      rw [NewFPEncoderWithLength, if_pos hL] at h
      exact absurd h (by simp)
    · intro hL
      rw [NewFPEncoderWithLength, if_neg hL]
  · intro c hcon
    obtain ⟨rfl, hL⟩ := NewFPEncoderWithLength_ok hcon
    refine ⟨rfl, rfl, rfl, preCompute_range_le vmin vmax L, ?_, rfl, rfl, rfl,
      preCompute_zOffset vmin vmax L⟩
    intro z hz
    rw [preCompute_bPow]
    exact clog2_le_of_le (by linarith) hz

/-- C6 witness at `(0, 10, 2)`: width 2 is accepted, the derived constants
satisfy their characterizations, and in particular `bPow ≤ 4` because
`10 ≤ 2^4`. -/
theorem C6_width_constructor_witness :
    (NewFPEncoderWithLength 0 10 2 = .error .invalidFieldLength ↔
      ¬((2:ℤ) = 1 ∨ (2:ℤ) = 2 ∨ (2:ℤ) = 4 ∨ (2:ℤ) = 8)) ∧
    (preCompute 0 10 2).a = 0 ∧ (preCompute 0 10 2).b = 10 ∧
    (preCompute 0 10 2).fieldLength = 2 ∧
    (10:ℚ) - 0 ≤ 2 ^ (preCompute 0 10 2).bPow ∧
    (preCompute 0 10 2).bPow ≤ 4 ∧
    (preCompute 0 10 2).dPow = 8 * 2 - 1 ∧
    (preCompute 0 10 2).sF =
      2 ^ ((preCompute 0 10 2).dPow - (preCompute 0 10 2).bPow) ∧
    (preCompute 0 10 2).sR =
      2 ^ ((preCompute 0 10 2).bPow - (preCompute 0 10 2).dPow) ∧
    (preCompute 0 10 2).zOffset =
      (if (0:ℚ) < 0 ∧ (0:ℚ) < 10 then
        (preCompute 0 10 2).sF * 0 - ⌊(preCompute 0 10 2).sF * 0⌋ else 0) := by
  have h := C6_width_constructor 0 10 2 (by norm_num)
  have h2 := h.2 (preCompute 0 10 2) (by rw [NewFPEncoderWithLength, if_pos] <;> norm_num)
  exact ⟨h.1, h2.1, h2.2.1, h2.2.2.1, h2.2.2.2.1, h2.2.2.2.2.1 4 (by norm_num),
    h2.2.2.2.2.2.1, h2.2.2.2.2.2.2.1, h2.2.2.2.2.2.2.2.1, h2.2.2.2.2.2.2.2.2⟩

/-- The byte count computed for range `[0, 10]` at precision 100:
`ceil(log2(0.1) + 1) = -2` bits, so zero bytes. -/
lemma bytesNeeded_0_10_100 : bytesNeeded 0 10 100 = 0 := by
  rw [bytesNeeded, precisionBits]
  rw [show Int.clog 2 (((10:ℚ) - 0) / 100) = -3 from by apply clog2_eq <;> norm_num]
  rw [Int.ceil_eq_iff]
  constructor <;> norm_num

/-- At `(0, 10, 100)` the precision constructor succeeds and hands the
computed length 0 straight to `preCompute`. -/
lemma NewFPEncoderWithPrecision_0_10_100 :
    NewFPEncoderWithPrecision 0 10 100 = .ok (preCompute 0 10 0) := by
  rw [NewFPEncoderWithPrecision]
  simp only [bytesNeeded_0_10_100]
  norm_num

/-- C7 is refuted as stated: with `precision = 100` on the range `[0, 10]`
the computed byte count is 0, yet construction succeeds — and the codec it
returns has `fieldLength = 0`, outside {1, 2, 4, 8}. -/
theorem C7_precision_counterexample :
    bytesNeeded 0 10 100 = 0 ∧
    NewFPEncoderWithPrecision 0 10 100 = .ok (preCompute 0 10 0) ∧
    ¬((preCompute 0 10 0).fieldLength = 1 ∨ (preCompute 0 10 0).fieldLength = 2 ∨
      (preCompute 0 10 0).fieldLength = 4 ∨ (preCompute 0 10 0).fieldLength = 8) := by
  refine ⟨bytesNeeded_0_10_100, NewFPEncoderWithPrecision_0_10_100, ?_⟩
  rw [preCompute_fieldLength]
  omega

/-- C7 (amended): the precision constructor fails with
`precisionUnrepresentable` exactly when the computed byte count exceeds 8;
and whenever that count is between 1 and 8 it succeeds with the smallest
field width among {1, 2, 4, 8} at least the count.  (For a computed count
of 0 or below — precision coarser than the range — it also succeeds, but
with that degenerate count as the field width, see the counterexample.) -/
theorem C7_precision_constructor (vmin vmax precision : ℚ) :
    (NewFPEncoderWithPrecision vmin vmax precision = .error .precisionUnrepresentable ↔
      8 < bytesNeeded vmin vmax precision) ∧
    (1 ≤ bytesNeeded vmin vmax precision → bytesNeeded vmin vmax precision ≤ 8 →
      ∃ c, NewFPEncoderWithPrecision vmin vmax precision = .ok c ∧
        (c.fieldLength = 1 ∨ c.fieldLength = 2 ∨ c.fieldLength = 4 ∨ c.fieldLength = 8) ∧
        bytesNeeded vmin vmax precision ≤ c.fieldLength ∧
        ∀ W : ℤ, (W = 1 ∨ W = 2 ∨ W = 4 ∨ W = 8) →
          bytesNeeded vmin vmax precision ≤ W → c.fieldLength ≤ W) := by
  constructor
  · rw [NewFPEncoderWithPrecision]
    split_ifs with h1 h2 h3 <;> simp <;> omega
  · intro hge hle
    rw [NewFPEncoderWithPrecision]
    by_cases h1 : bytesNeeded vmin vmax precision ≤ 2
    · rw [if_pos h1]
      refine ⟨_, rfl, ?_, ?_, ?_⟩
      · rw [preCompute_fieldLength]
        omega
      · rw [preCompute_fieldLength]
      · intro W _ hW
        rw [preCompute_fieldLength]
        exact hW
    · rw [if_neg h1]
      by_cases h2 : bytesNeeded vmin vmax precision ≤ 4
      · rw [if_pos h2]
        refine ⟨_, rfl, ?_, ?_, ?_⟩
        · rw [preCompute_fieldLength]
          omega
        · rw [preCompute_fieldLength]
          omega
        · intro W hWmem hW
          rw [preCompute_fieldLength]
          rcases hWmem with h | h | h | h <;> omega
      · rw [if_neg h2, if_pos hle]
        refine ⟨_, rfl, ?_, ?_, ?_⟩
        · rw [preCompute_fieldLength]
          omega
        · rw [preCompute_fieldLength]
          omega
        · intro W hWmem hW
          rw [preCompute_fieldLength]
          rcases hWmem with h | h | h | h <;> omega

/-- The byte count for range `[0, 100]` at precision `1/10`:
`ceil(log2(1000) + 1) = 11` bits, so 2 bytes. -/
lemma bytesNeeded_0_100_tenth : bytesNeeded 0 100 (1/10) = 2 := by
  rw [bytesNeeded, precisionBits]
  rw [show Int.clog 2 (((100:ℚ) - 0) / (1/10)) = 10 from by apply clog2_eq <;> norm_num]
  rw [Int.ceil_eq_iff]
  constructor <;> norm_num

/-- C7 witness: at `(0, 100, 1/10)` the computed count is 2 and the
constructor picks field width 2, minimal among the allowed widths. -/
theorem C7_precision_constructor_witness :
    ∃ c, NewFPEncoderWithPrecision 0 100 (1/10) = .ok c ∧
      (c.fieldLength = 1 ∨ c.fieldLength = 2 ∨ c.fieldLength = 4 ∨ c.fieldLength = 8) ∧
      bytesNeeded 0 100 (1/10) ≤ c.fieldLength ∧
      ∀ W : ℤ, (W = 1 ∨ W = 2 ∨ W = 4 ∨ W = 8) →
        bytesNeeded 0 100 (1/10) ≤ W → c.fieldLength ≤ W :=
  (C7_precision_constructor 0 100 (1/10)).2
    (by rw [bytesNeeded_0_100_tenth]; norm_num) (by rw [bytesNeeded_0_100_tenth]; norm_num)

/-- C8: on every codec built by the explicit-width constructor, `Decode`
fails with `lengthMismatch` exactly on inputs of the wrong length (the
check runs before sentinel detection, so it applies to sentinel-headed
inputs too); and on a correct-length non-sentinel input it reads the bytes
big-endian as `l` and returns `sR·(l - zOffset) + min`, failing with
`decodedOutOfRange` exactly when that value leaves `[min, max]`. -/
theorem C8_decode_errors (vmin vmax : ℚ) (L : ℤ) (c : FPEncoder)
    (hcon : NewFPEncoderWithLength vmin vmax L = .ok c) :
    (∀ bs : List ℕ,
      Decode c bs = .error .lengthMismatch ↔ (bs.length : ℤ) ≠ c.fieldLength) ∧
    (∀ b0 rest, (((b0 :: rest).length : ℕ) : ℤ) = c.fieldLength →
      b0 ≠ 0xc8 → b0 ≠ 0xe8 → b0 ≠ 0xd0 →
      Decode c (b0 :: rest) =
        if c.sR * ((beToNat (b0 :: rest) : ℚ) - c.zOffset) + c.a < vmin ∨
            vmax < c.sR * ((beToNat (b0 :: rest) : ℚ) - c.zOffset) + c.a then
          .error .decodedOutOfRange
        else .ok (.finite (c.sR * ((beToNat (b0 :: rest) : ℚ) - c.zOffset) + c.a))) := by
  obtain ⟨rfl, hL⟩ := NewFPEncoderWithLength_ok hcon
  constructor
  · intro bs
    constructor
    · intro h
      intro heq
      cases bs with
      | nil =>
        simp only [Decode] at h
        rw [if_neg (not_not_intro heq)] at h
        exact absurd h (by simp)
      | cons b0 rest =>
        simp only [Decode] at h
        rw [if_neg (not_not_intro heq)] at h
        rcases eq_or_ne b0 0xc8 with h8 | h8
        · rw [if_pos h8] at h
          exact absurd h (by simp)
        · rw [if_neg h8] at h
          rcases eq_or_ne b0 0xe8 with he | he
          · rw [if_pos he] at h
            exact absurd h (by simp)
          · rw [if_neg he] at h
            rcases eq_or_ne b0 0xd0 with hn | hn
            · rw [if_pos hn] at h
              exact absurd h (by simp)
            · rw [if_neg hn] at h
              split_ifs at h <;> simp_all
    · intro hne
      simp only [Decode]
      rw [if_pos hne]
  · intro b0 rest hlen hc8 he8 hd0
    exact Decode_data_eq _ b0 rest hlen hc8 he8 hd0
      (by rw [preCompute_fieldLength]; exact hL)

/-- C8 witness: on the codec over `[0, 10]` with one byte, a two-byte
input is a length mismatch, and the one-byte input `[7]` decodes by the
reconstruction formula. -/
theorem C8_decode_errors_witness :
    (Decode (preCompute 0 10 1) [5, 6] = .error .lengthMismatch ↔
      (([5, 6].length : ℤ) ≠ (preCompute 0 10 1).fieldLength)) ∧
    Decode (preCompute 0 10 1) [7] =
      (if (preCompute 0 10 1).sR * ((beToNat [7] : ℚ) - (preCompute 0 10 1).zOffset) +
            (preCompute 0 10 1).a < 0 ∨
          10 < (preCompute 0 10 1).sR * ((beToNat [7] : ℚ) - (preCompute 0 10 1).zOffset) +
            (preCompute 0 10 1).a then
        .error .decodedOutOfRange
      else .ok (.finite ((preCompute 0 10 1).sR *
        ((beToNat [7] : ℚ) - (preCompute 0 10 1).zOffset) + (preCompute 0 10 1).a))) :=
  ⟨(C8_decode_errors 0 10 1 (preCompute 0 10 1)
      (by rw [NewFPEncoderWithLength, if_pos] <;> norm_num)).1 [5, 6],
    (C8_decode_errors 0 10 1 (preCompute 0 10 1)
      (by rw [NewFPEncoderWithLength, if_pos] <;> norm_num)).2 7 []
      (by norm_num [preCompute_fieldLength]) (by norm_num) (by norm_num) (by norm_num)⟩

/-- The codec over `[0, 1e9]` with eight bytes, fully evaluated:
`bPow = ceil(log2 1e9) = 30`, `dPow = 63`, `sF = 2^33`. -/
lemma preCompute_0_1e9_8 :
    preCompute 0 (10^9) 8 =
      { a := 0, b := 10^9, bPow := 30, dPow := 63, sF := 8589934592,
        sR := 1/8589934592, zOffset := 0, fieldLength := 8 } := by
  have h : Int.clog 2 ((10:ℚ)^9 - 0) = 30 := by
    apply clog2_eq <;> norm_num
  simp only [preCompute, h]
  norm_num

/-- C9: the codec over `[0, 1e9]` with eight bytes encodes `3.14159` to
exactly `[00 00 00 06 48 7e 7c 06]`, and decoding those bytes returns a
value within `1e-8` of `3.14159`. -/
theorem C9_concrete_roundtrip :
    Encode (preCompute 0 (10^9) 8) (.finite (314159/100000)) =
      .ok [0x00, 0x00, 0x00, 0x06, 0x48, 0x7e, 0x7c, 0x06] ∧
    ∃ w : ℚ,
      Decode (preCompute 0 (10^9) 8) [0x00, 0x00, 0x00, 0x06, 0x48, 0x7e, 0x7c, 0x06] =
        .ok (.finite w) ∧ |(314159/100000 : ℚ) - w| ≤ 1/10^8 := by
  rw [preCompute_0_1e9_8]
  constructor
  · rw [Encode_finite_eq _ (by norm_num) (by norm_num) (by norm_num)]
    have hfl : ⌊(8589934592:ℚ) * (314159/100000 - 0) + 0⌋ = 26986052614 := by
      rw [Int.floor_eq_iff]
      constructor <;> norm_num
    show Except.ok (beBytes (8:ℤ).toNat
      (⌊(8589934592:ℚ) * (314159/100000 - 0) + 0⌋).toNat) = _
    rw [hfl]
    decide
  · refine ⟨13493026307/4294967296, ?_, ?_⟩
    · rw [Decode_data_eq _ 0 [0, 0, 6, 72, 126, 124, 6] (by norm_num) (by norm_num)
        (by norm_num) (by norm_num) (by norm_num)]
      have hbt : beToNat [0, 0, 0, 6, 72, 126, 124, 6] = 26986052614 := by decide
      rw [hbt]
      rw [if_neg (by push_neg; constructor <;> norm_num)]
      norm_num
    · rw [show (314159/100000 : ℚ) - 13493026307/4294967296 = 1377/13421772800000 from by
        norm_num]
      rw [abs_of_nonneg (by norm_num)]
      norm_num

/-- C10: with `min = 0 < max = 10` and `precision = 100 > 2·(max - min)`,
the precision constructor succeeds yet returns a codec with
`fieldLength = 0`; on that codec the sentinel branch of `Encode` writes to
index 0 of a zero-length buffer, which is out of bounds — modelled by the
`panicked` outcome — for `+Inf`, `-Inf` and `NaN` alike. -/
theorem C10_zero_width_panic :
    (0:ℚ) < 10 ∧ (0:ℚ) < 100 ∧ 2 * ((10:ℚ) - 0) < 100 ∧
    NewFPEncoderWithPrecision 0 10 100 = .ok (preCompute 0 10 0) ∧
    (preCompute 0 10 0).fieldLength = 0 ∧
    Encode (preCompute 0 10 0) .posInf = .error .panicked ∧
    Encode (preCompute 0 10 0) .negInf = .error .panicked ∧
    Encode (preCompute 0 10 0) .nan = .error .panicked := by
  refine ⟨by norm_num, by norm_num, by norm_num, NewFPEncoderWithPrecision_0_10_100,
    preCompute_fieldLength 0 10 0, ?_, ?_, ?_⟩ <;>
  · simp only [Encode, sentinelEncode, preCompute_fieldLength]
    norm_num

end ST1201
